import Mathlib

set_option maxRecDepth 100000

/-!
Verification of a revised-simplex linear-program solver.

The program keeps a canonical form of the LP `max cᵀx, A·x ≤ b, x ≥ 0`
with slack variables appended, and pivots between bases.  Matrices are
dense; the dense linear-algebra collaborator (inverse and linear solve)
is rendered here as exact Gaussian elimination over `ℚ`.  The source
tracks the basis→variable remapping in two ways (a dense array that is
swapped in place, and a sparse map with delete/insert); both variants
are embedded below (`CanonicalForm` and `CanonicalFormM`).
-/

/-! ### List and dense-matrix primitives -/

def lgetD {α : Type} (dflt : α) : List α → Nat → α
  | [], _ => dflt
  | a :: _, 0 => a
  | _ :: t, n+1 => lgetD dflt t n

def lset {α : Type} : List α → Nat → α → List α
  | [], _, _ => []
  | _ :: t, 0, v => v :: t
  | a :: t, n+1, v => a :: lset t n v

abbrev Mat := List (List ℚ)

def mget (M : Mat) (i j : Nat) : ℚ :=
  lgetD 0 (lgetD [] M i) j

def msetEntry (M : Mat) (i j : Nat) (v : ℚ) : Mat :=
  lset M i (lset (lgetD [] M i) j v)

def matRows (M : Mat) : Nat := M.length

def matCols (M : Mat) : Nat := (lgetD [] M 0).length

def matMul (M N : Mat) : Mat :=
  M.map (fun row => (List.range (matCols N)).map (fun j =>
    (List.zipWith (fun a r => a * lgetD 0 r j) row N).sum))

def matSub (M N : Mat) : Mat :=
  List.zipWith (List.zipWith (fun a b => a - b)) M N

def matScale (x : ℚ) (M : Mat) : Mat :=
  M.map (fun row => row.map (fun a => x * a))

def colView (M : Mat) (j : Nat) : Mat :=
  M.map (fun row => [lgetD 0 row j])

def identityMat (m : Nat) : Mat :=
  (List.range m).map (fun i => (List.range m).map (fun j => if i = j then 1 else 0))

def growCols (M : Mat) (k : Nat) : Mat :=
  M.map (fun row => row ++ List.replicate k 0)

/-! ### Exact linear algebra (the dense collaborator: solve and inverse) -/

def findPivot (j : Nat) : List (List ℚ) → Option (List ℚ × List (List ℚ))
  | [] => none
  | r :: rs =>
    if lgetD 0 r j ≠ 0 then some (r, rs)
    else
      match findPivot j rs with
      | none => none
      | some (p, rest) => some (p, r :: rest)

/-- Subtract `r[j]` times the (normalized) pivot row `p` from row `r`. -/
def elimRow (j : Nat) (p r : List ℚ) : List ℚ :=
  List.zipWith (fun a b => a - lgetD 0 r j * b) r p

def forward : Nat → Nat → List (List ℚ) → Option (List (List ℚ))
  | _, _, [] => some []
  | 0, _, _ :: _ => none
  | fuel+1, j, r :: rs =>
    match findPivot j (r :: rs) with
    | none => none
    | some (p, rest) =>
      let p1 := p.map (fun a => a / lgetD 0 p j)
      match forward fuel (j+1) (rest.map (elimRow j p1)) with
      | none => none
      | some out => some (p1 :: out)

def backward : Nat → List (List ℚ) → List (List ℚ)
  | _, [] => []
  | j, p :: rest =>
    let rest1 := backward (j+1) rest
    ((List.range rest1.length).foldl
      (fun acc t => elimRow (j+1+t) (lgetD [] rest1 t) acc) p) :: rest1

/-- Solve `M · X = RHS` (`M` square) by Gauss-Jordan elimination; `none`
exactly when `M` is singular. -/
def linSolve (M RHS : Mat) : Option Mat :=
  match forward M.length 0 (List.zipWith (fun a b => a ++ b) M RHS) with
  | none => none
  | some rows => some ((backward 0 rows).map (List.drop M.length))

def matInverse (M : Mat) : Option Mat :=
  linSolve M (identityMat M.length)


/-! ### Selection loops shared by both variants -/

/-- The entering-variable scan: Dantzig rule over the reduced-cost row
`rv`, keeping the first index attaining the (strictly positive) maximum;
`-1` when no entry is positive.  Mirrors the `max := 0.0` loop. -/
def dantzigFold (rv : Nat → ℚ) (cols : Nat) : ℚ × Int :=
  (List.range cols).foldl
    (fun acc j => if 0 < rv j ∧ acc.1 < rv j then (rv j, (j : Int)) else acc)
    (0, -1)

/-- The ratio-test scan: minimum of `xv i / dv i` over rows with `dv i > 0`,
first index kept on ties; the `Bool` records whether any positive row was
seen (the `found` flag standing for the `x := +Inf` initialisation). -/
def ratioFold (dv xv : Nat → ℚ) (r : Nat) : Bool × ℚ × Int :=
  (List.range r).foldl
    (fun acc i =>
      if dv i ≤ 0 then acc
      else if acc.1 = false ∨ xv i / dv i < acc.2.1 then (true, xv i / dv i, (i : Int))
      else (true, acc.2.1, acc.2.2))
    (false, 0, -1)

/-- Swap the values at positions `a` and `b` of a row (the two `Set`
calls of the pivot, with the leaving value copied out beforehand). -/
def swapEntries (row : List ℚ) (a b : Nat) : List ℚ :=
  lset (lset row a (lgetD 0 row b)) b (lgetD 0 row a)

/-- Apply `f i row` to each row, `i` being the row index (a row-indexed
rendering of the source loops that touch each row exactly once). -/
def mapRows (f : Nat → List ℚ → List ℚ) : Nat → Mat → Mat
  | _, [] => []
  | i, row :: rest => f i row :: mapRows f (i+1) rest

/-! ### The canonical form, dense array-remap variant -/

structure CanonicalForm where
  n : Nat
  m : Nat
  A : Mat
  c : Mat
  b : Mat
  xBStar : Mat
  remap : List Nat
deriving DecidableEq

namespace CanonicalForm

/-- `New`: validate, append the slack identity block to `A`, widen `c`
with zero costs, copy `b` into `xBStar`, and set `remap` to the identity
array of length `n+m`. -/
def New (c0 A0 b0 : Mat) : Option CanonicalForm :=
  if matRows c0 > 1 then none
  else
    let n := matCols c0
    if matCols A0 > n then none
    else
      let m := matRows A0
      some { n := n, m := m,
             A := (List.range m).foldl (fun M i => msetEntry M i (n + i) 1) (growCols A0 m),
             c := growCols c0 m, b := b0, xBStar := b0,
             remap := List.range (n + m) }

/-- The basis view: columns `n..n+m-1` of `A`. -/
def B (cf : CanonicalForm) : Mat :=
  cf.A.map (fun row => (row.drop cf.n).take cf.m)

/-- The non-basis view: columns `0..n-1` of `A`. -/
def AN (cf : CanonicalForm) : Mat :=
  cf.A.map (fun row => row.take cf.n)

def cB (cf : CanonicalForm) : Mat :=
  cf.c.map (fun row => (row.drop cf.n).take cf.m)

def cN (cf : CanonicalForm) : Mat :=
  cf.c.map (fun row => row.take cf.n)

/-- `FindY`: invert the basis and form `y = cB · B⁻¹`. -/
def FindY (cf : CanonicalForm) : Option Mat :=
  match matInverse cf.B with
  | none => none
  | some BInv => some (matMul cf.cB BInv)

/-- The reduced-cost row `cN - y·AN` (local `m` of the source). -/
def reducedCosts (cf : CanonicalForm) (y : Mat) : Mat :=
  matSub cf.cN (matMul y cf.AN)

/-- Entering-variable selection, with the forced-index override that is
honored only for a nonzero index with positive reduced cost. -/
def FindEnteringVariable (cf : CanonicalForm) (y : Mat) (force : Nat) : Int :=
  let r := cf.reducedCosts y
  if force ≠ 0 then
    if 0 < mget r 0 force then (force : Int) else -1
  else
    (dantzigFold (fun j => mget r 0 j) (matCols r)).2

/-- Solve `B·d = AN[:,k]`. -/
def SolveBd (cf : CanonicalForm) (k : Nat) : Option Mat :=
  linSolve cf.B (colView cf.AN k)

/-- Ratio test; `(-1, -1)` when no row of `d` is positive (unbounded). -/
def FindLeavingVariable (cf : CanonicalForm) (d : Mat) : ℚ × Int :=
  let res := ratioFold (fun i => mget d i 0) (fun i => mget cf.xBStar i 0) (matRows d)
  if res.1 = false then (-1, -1) else (res.2.1, res.2.2)

/-- Pivot update: `xBStar ← xBStar - x·d` then `xBStar[l] = x`; for each
of the first `rows d` rows the physical columns `n+l` (in `B`) and `k`
(in `AN`) exchange values, and likewise the cost entries. -/
def Update (cf : CanonicalForm) (d : Mat) (x : ℚ) (k l : Nat) : CanonicalForm :=
  let r := matRows d
  { cf with
    xBStar := msetEntry (matSub cf.xBStar (matScale x d)) l 0 x,
    A := mapRows (fun i row => if i < r then swapEntries row (cf.n + l) k else row) 0 cf.A,
    c := mapRows (fun i row => if i = 0 then swapEntries row (cf.n + l) k else row) 0 cf.c }

/-- One pivot step of the state machine. -/
def Iter (cf : CanonicalForm) (force : Nat) : Option (Bool × CanonicalForm) :=
  match cf.FindY with
  | none => none
  | some y =>
    let k := cf.FindEnteringVariable y force
    if k = -1 then some (true, cf)
    else
      match cf.SolveBd k.toNat with
      | none => none
      | some d =>
        let xl := cf.FindLeavingVariable d
        if xl.2 = -1 then some (true, cf)
        else
          let kn := k.toNat
          let ln := xl.2.toNat
          let tmp := lgetD 0 cf.remap (cf.n + ln)
          let cf1 := { cf with remap := lset (lset cf.remap (cf.n + ln) kn) kn tmp }
          some (false, cf1.Update d xl.1 kn ln)

/-- Result extraction: a zero column of length `n+m` (the dimensions of
the all-variables column `x` of the source), filled from `xBStar`
through `remap`; structural indices (`< n`) contribute to the score. -/
def GetResults (cf : CanonicalForm) : Mat × ℚ :=
  (List.range cf.m).foldl
    (fun acc t =>
      let i := cf.n + t
      let idx := lgetD 0 cf.remap i
      let v := mget cf.xBStar t 0
      (msetEntry acc.1 idx 0 v,
       if idx < cf.n then acc.2 + v * mget cf.c 0 i else acc.2))
    (List.replicate (cf.n + cf.m) [0], 0)

end CanonicalForm

/-- The bounded driver loop: iterate until a terminal signal or the
iteration budget runs out, counting completed (non-terminal) steps. -/
def simplexLoop : Nat → Nat → CanonicalForm → Option (Nat × CanonicalForm)
  | 0, totalIter, cf => some (totalIter, cf)
  | fuel + 1, totalIter, cf =>
    match cf.Iter 0 with
    | none => none
    | some (true, cf1) => some (totalIter, cf1)
    | some (false, cf1) => simplexLoop fuel (totalIter + 1) cf1

/-- The solver entry point (array-remap variant): construct the canonical
form, loop, and extract results. -/
def Simplex (c A b : Mat) (maxIter : Nat) : Option (Nat × Mat × ℚ) :=
  match CanonicalForm.New c A b with
  | none => none
  | some cf =>
    match simplexLoop maxIter 0 cf with
    | none => none
    | some (t, cf1) => some (t, cf1.GetResults)


/-! ### The canonical form, sparse map-remap variant -/

def mapLookup : List (Nat × Nat) → Nat → Option Nat
  | [], _ => none
  | p :: t, k => if p.1 = k then some p.2 else mapLookup t k

def mapInsert : List (Nat × Nat) → Nat → Nat → List (Nat × Nat)
  | [], k, v => [(k, v)]
  | p :: t, k, v => if p.1 = k then (k, v) :: t else p :: mapInsert t k v

def mapErase : List (Nat × Nat) → Nat → List (Nat × Nat)
  | [], _ => []
  | p :: t, k => if p.1 = k then mapErase t k else p :: mapErase t k

structure CanonicalFormM where
  n : Nat
  m : Nat
  A : Mat
  c : Mat
  b : Mat
  xBStar : Mat
  remap : List (Nat × Nat)
deriving DecidableEq

namespace CanonicalFormM

/-- `New` of the map variant: as the array variant, but `remap` is a
sparse map sending each slack index `n+i` to its basis row `i`. -/
def New (z0 A0 b0 : Mat) : Option CanonicalFormM :=
  if matRows z0 > 1 then none
  else
    let n := matCols z0
    if matCols A0 > n then none
    else
      let m := matRows A0
      some { n := n, m := m,
             A := (List.range m).foldl (fun M i => msetEntry M i (n + i) 1) (growCols A0 m),
             c := growCols z0 m, b := b0, xBStar := b0,
             remap := (List.range m).map (fun i => (n + i, i)) }

def B (cf : CanonicalFormM) : Mat :=
  cf.A.map (fun row => (row.drop cf.n).take cf.m)

def AN (cf : CanonicalFormM) : Mat :=
  cf.A.map (fun row => row.take cf.n)

def cB (cf : CanonicalFormM) : Mat :=
  cf.c.map (fun row => (row.drop cf.n).take cf.m)

def cN (cf : CanonicalFormM) : Mat :=
  cf.c.map (fun row => row.take cf.n)

def FindY (cf : CanonicalFormM) : Option Mat :=
  match matInverse cf.B with
  | none => none
  | some BInv => some (matMul cf.cB BInv)

def reducedCosts (cf : CanonicalFormM) (y : Mat) : Mat :=
  matSub cf.cN (matMul y cf.AN)

def FindInputVariable (cf : CanonicalFormM) (y : Mat) (force : Nat) : Int :=
  let r := cf.reducedCosts y
  if force ≠ 0 then
    if 0 < mget r 0 force then (force : Int) else -1
  else
    (dantzigFold (fun j => mget r 0 j) (matCols r)).2

def SolveBd (cf : CanonicalFormM) (k : Nat) : Option Mat :=
  linSolve cf.B (colView cf.AN k)

/-- Ratio test of the map variant; on success it also deletes the remap
entry of the slack index of the leaving row. -/
def FindOutputVariable (cf : CanonicalFormM) (d : Mat) : ℚ × Int × CanonicalFormM :=
  let res := ratioFold (fun i => mget d i 0) (fun i => mget cf.xBStar i 0) (matRows d)
  if res.1 = false then (-1, -1, cf)
  else (res.2.1, res.2.2,
        { cf with remap := mapErase cf.remap (cf.n + res.2.2.toNat) })

/-- Pivot update of the map variant: `xBStar` as in the array variant,
but only `B`'s leaving column and `cB`'s entry are overwritten with the
entering data — nothing is copied back into `AN`/`cN`. -/
def Update (cf : CanonicalFormM) (d : Mat) (x : ℚ) (k l : Nat) : CanonicalFormM :=
  let r := matRows d
  { cf with
    xBStar := msetEntry (matSub cf.xBStar (matScale x d)) l 0 x,
    A := mapRows (fun i row => if i < r then lset row (cf.n + l) (lgetD 0 row k) else row) 0 cf.A,
    c := mapRows (fun i row => if i = 0 then lset row (cf.n + l) (lgetD 0 row k) else row) 0 cf.c }

def Iter (cf : CanonicalFormM) (force : Nat) : Option (Bool × CanonicalFormM) :=
  match cf.FindY with
  | none => none
  | some y =>
    let k := cf.FindInputVariable y force
    if k = -1 then some (true, cf)
    else
      match cf.SolveBd k.toNat with
      | none => none
      | some d =>
        let xlc := cf.FindOutputVariable d
        if xlc.2.1 = -1 then some (true, xlc.2.2)
        else
          let cf1 := { xlc.2.2 with remap := mapInsert xlc.2.2.remap k.toNat xlc.2.1.toNat }
          some (false, cf1.Update d xlc.1 k.toNat xlc.2.1.toNat)

/-- Result extraction of the map variant: every augmented index mapped by
`remap` reads its row of `xBStar`; unmapped indices stay zero; structural
indices score against the (never-swapped) `cN`. -/
def GetResults (cf : CanonicalFormM) : Mat × ℚ :=
  (List.range (cf.n + cf.m)).foldl
    (fun acc xi =>
      match mapLookup cf.remap xi with
      | none => acc
      | some xo =>
        let v := mget cf.xBStar xo 0
        (msetEntry acc.1 xi 0 v,
         if xi < cf.n then acc.2 + v * mget cf.cN 0 xi else acc.2))
    (List.replicate (cf.n + cf.m) [0], 0)

end CanonicalFormM

def simplexLoopM : Nat → Nat → CanonicalFormM → Option (Nat × CanonicalFormM)
  | 0, totalIter, cf => some (totalIter, cf)
  | fuel + 1, totalIter, cf =>
    match cf.Iter 0 with
    | none => none
    | some (true, cf1) => some (totalIter, cf1)
    | some (false, cf1) => simplexLoopM fuel (totalIter + 1) cf1

/-- The solver entry point, map-remap variant. -/
def SimplexM (z A b : Mat) (maxIter : Nat) : Option (Nat × Mat × ℚ) :=
  match CanonicalFormM.New z A b with
  | none => none
  | some cf =>
    match simplexLoopM maxIter 0 cf with
    | none => none
    | some (t, cf1) => some (t, cf1.GetResults)

/-- The receiver-mutating rendering of `New`: the Go method assigns the
field `n` before running the width check, so the second validation error
returns with `n` already overwritten; the first check precedes every
mutation, and on success every field is (re)assigned. -/
def CanonicalForm.NewR (cf : CanonicalForm) (c0 A0 b0 : Mat) :
    Option String × CanonicalForm :=
  if matRows c0 > 1 then (some "z dims.r > 1", cf)
  else
    let cf1 := { cf with n := matCols c0 }
    if matCols A0 > cf1.n then (some "A dims.c > z dims.r", cf1)
    else
      let cf2 := { cf1 with m := matRows A0 }
      (none, { cf2 with
        A := (List.range cf2.m).foldl (fun M i => msetEntry M i (cf2.n + i) 1)
          (growCols A0 cf2.m),
        c := growCols c0 cf2.m, b := b0, xBStar := b0,
        remap := List.range (cf2.n + cf2.m) })

/-! ### Concrete states for scenario A (array variant) -/

def cfDefault : CanonicalForm :=
  { n := 0, m := 0, A := [], c := [], b := [], xBStar := [], remap := [] }

def cfA0 : CanonicalForm :=
  (CanonicalForm.New [[7,9,18,17]] [[2,4,5,7],[1,1,2,2],[1,2,3,3]] [[42],[17],[24]]).getD
    cfDefault

def cfA1 : CanonicalForm := ((cfA0.Iter 0).getD (true, cfDefault)).2

def cfA2 : CanonicalForm := ((cfA1.Iter 0).getD (true, cfDefault)).2

/-! ### Further concrete states (map variant, small instances) -/

def cfmDefault : CanonicalFormM :=
  { n := 0, m := 0, A := [], c := [], b := [], xBStar := [], remap := [] }

def cfmA0 : CanonicalFormM :=
  (CanonicalFormM.New [[7,9,18,17]] [[2,4,5,7],[1,1,2,2],[1,2,3,3]] [[42],[17],[24]]).getD
    cfmDefault

def cfw0 : CanonicalForm :=
  (CanonicalForm.New [[1,0]] [[1,1]] [[1]]).getD cfDefault

def cfd0 : CanonicalFormM :=
  (CanonicalFormM.New [[3,5]] [[1,2]] [[2]]).getD cfmDefault

def cfd1 : CanonicalFormM := ((cfd0.Iter 0).getD (true, cfmDefault)).2

def cfd2 : CanonicalFormM := ((cfd1.Iter 0).getD (true, cfmDefault)).2



/-! ### Access lemmas for the list primitives -/

theorem lset_length {α : Type} (l : List α) (n : Nat) (v : α) :
    (lset l n v).length = l.length := by
  induction l generalizing n with
  | nil => rfl
  | cons a t ih =>
    cases n with
    | zero => rfl
    | succ n' => simp [lset, ih]

theorem lgetD_lset_self {α : Type} (d : α) (l : List α) (n : Nat) (v : α)
    (h : n < l.length) : lgetD d (lset l n v) n = v := by
  induction l generalizing n with
  | nil => simp at h
  | cons a t ih =>
    cases n with
    | zero => rfl
    | succ n' => exact ih n' (by simpa using h)

theorem lgetD_lset_ne {α : Type} (d : α) (l : List α) (n i : Nat) (v : α)
    (h : i ≠ n) : lgetD d (lset l n v) i = lgetD d l i := by
  induction l generalizing n i with
  | nil => rfl
  | cons a t ih =>
    cases n with
    | zero => cases i with
      | zero => exact absurd rfl h
      | succ i' => rfl
    | succ n' => cases i with
      | zero => rfl
      | succ i' => exact ih n' i' (fun he => h (by rw [he]))

theorem lset_oob {α : Type} (l : List α) (n : Nat) (v : α)
    (h : l.length ≤ n) : lset l n v = l := by
  induction l generalizing n with
  | nil => rfl
  | cons a t ih =>
    cases n with
    | zero => simp at h
    | succ n' => simp [lset, ih n' (by simpa using h)]

theorem lgetD_oob {α : Type} (d : α) (l : List α) (n : Nat)
    (h : l.length ≤ n) : lgetD d l n = d := by
  induction l generalizing n with
  | nil => rfl
  | cons a t ih =>
    cases n with
    | zero => simp at h
    | succ n' => exact ih n' (by simpa using h)

theorem lgetD_eq_get? {α : Type} (d : α) (l : List α) (n : Nat) :
    lgetD d l n = (l.get? n).getD d := by
  induction l generalizing n with
  | nil => cases n <;> rfl
  | cons a t ih => cases n with
    | zero => rfl
    | succ n' => simpa [lgetD] using ih n'

theorem lgetD_range (n i : Nat) (h : i < n) : lgetD 0 (List.range n) i = i := by
  rw [lgetD_eq_get?, List.get?_range h]
  rfl

theorem mget_row_oob (M : Mat) (i j : Nat) (h : M.length ≤ i) : mget M i j = 0 := by
  unfold mget
  rw [lgetD_oob [] M i h]
  rfl

/-! ### Entry lemmas for the matrix operations -/

theorem mget_msetEntry_or (M : Mat) (a b : Nat) (v : ℚ) (i j : Nat) :
    mget (msetEntry M a b v) i j = v ∨ mget (msetEntry M a b v) i j = mget M i j := by
  unfold mget msetEntry
  by_cases hi : i = a
  · subst hi
    by_cases hia : i < M.length
    · rw [lgetD_lset_self [] M i _ hia]
      by_cases hj : j = b
      · subst hj
        by_cases hjb : j < (lgetD [] M i).length
        · left; exact lgetD_lset_self 0 _ j v hjb
        · right; rw [lset_oob _ j v (Nat.le_of_not_lt hjb)]
      · right; rw [lgetD_lset_ne 0 _ b j v hj]
    · right
      rw [lset_oob M i _ (Nat.le_of_not_lt hia)]
  · right
    rw [lgetD_lset_ne [] M a i _ hi]

theorem mget_msetEntry_ne (M : Mat) (a b : Nat) (v : ℚ) (i j : Nat)
    (h : i ≠ a ∨ j ≠ b) :
    mget (msetEntry M a b v) i j = mget M i j := by
  unfold mget msetEntry
  rcases h with hi | hj
  · rw [lgetD_lset_ne [] M a i _ hi]
  · by_cases hi : i = a
    · subst hi
      by_cases hia : i < M.length
      · rw [lgetD_lset_self [] M i _ hia, lgetD_lset_ne 0 _ b j v hj]
      · rw [lset_oob M i _ (Nat.le_of_not_lt hia)]
    · rw [lgetD_lset_ne [] M a i _ hi]

theorem mget_msetEntry_self (M : Mat) (a b : Nat) (v : ℚ)
    (ha : a < M.length) (hb : b < (lgetD [] M a).length) :
    mget (msetEntry M a b v) a b = v := by
  unfold mget msetEntry
  rw [lgetD_lset_self [] M a _ ha, lgetD_lset_self 0 _ b v hb]

theorem mget_matSub_matScale_or (xB d : Mat) (x : ℚ) (i : Nat) :
    mget (matSub xB (matScale x d)) i 0 = 0 ∨
      (i < xB.length ∧ i < d.length ∧
        mget (matSub xB (matScale x d)) i 0 = mget xB i 0 - x * mget d i 0) := by
  induction xB generalizing d i with
  | nil => left; rfl
  | cons rb tb ih =>
    cases d with
    | nil => left; cases i <;> rfl
    | cons rd td =>
      cases i with
      | zero =>
        cases rb with
        | nil => left; cases rd <;> rfl
        | cons a0 ta =>
          cases rd with
          | nil => left; rfl
          | cons b0 tbd =>
            right
            refine ⟨Nat.succ_pos _, Nat.succ_pos _, ?_⟩
            simp [matSub, matScale, mget, lgetD]
      | succ i' =>
        have := ih td i'
        rcases this with h0 | ⟨h1, h2, h3⟩
        · left
          simpa [matSub, matScale, mget, lgetD] using h0
        · right
          refine ⟨Nat.succ_lt_succ h1, Nat.succ_lt_succ h2, ?_⟩
          simpa [matSub, matScale, mget, lgetD] using h3

/-! ### Characterisation of the selection scans -/

theorem dantzigFold_spec (rv : Nat → ℚ) (cols : Nat) :
    (dantzigFold rv cols = (0, -1) ∧ ∀ j < cols, rv j ≤ 0) ∨
      (∃ jn, jn < cols ∧ dantzigFold rv cols = (rv jn, (jn : Int)) ∧ 0 < rv jn ∧
        (∀ j < cols, rv j ≤ rv jn) ∧ ∀ j < jn, rv j < rv jn) := by
  induction cols with
  | zero =>
    left
    exact ⟨rfl, fun j hj => absurd hj (Nat.not_lt_zero j)⟩
  | succ c ih =>
    have hstep : dantzigFold rv (c+1) =
        (if 0 < rv c ∧ (dantzigFold rv c).1 < rv c
         then (rv c, (c : Int)) else dantzigFold rv c) := by
      unfold dantzigFold
      rw [List.range_succ, List.foldl_append]
      rfl
    rcases ih with ⟨heq, hall⟩ | ⟨jn, hjn, heq, hpos, hmax, hfirst⟩
    · by_cases hc : 0 < rv c
      · right
        refine ⟨c, Nat.lt_succ_self c, ?_, hc, ?_, ?_⟩
        · rw [hstep, heq]
          simp [hc]
        · intro j hj
          rcases Nat.lt_succ_iff_lt_or_eq.mp hj with h | h
          · exact le_of_lt (lt_of_le_of_lt (hall j h) hc)
          · subst h; exact le_refl _
        · intro j hj
          exact lt_of_le_of_lt (hall j hj) hc
      · left
        constructor
        · rw [hstep, heq]
          simp [hc]
        · intro j hj
          rcases Nat.lt_succ_iff_lt_or_eq.mp hj with h | h
          · exact hall j h
          · subst h; exact le_of_not_lt hc
    · by_cases hc : 0 < rv c ∧ rv jn < rv c
      · right
        refine ⟨c, Nat.lt_succ_self c, ?_, hc.1, ?_, ?_⟩
        · rw [hstep, heq]
          simp [hc.1, hc.2]
        · intro j hj
          rcases Nat.lt_succ_iff_lt_or_eq.mp hj with h | h
          · exact le_of_lt (lt_of_le_of_lt (hmax j h) hc.2)
          · subst h; exact le_refl _
        · intro j hj
          exact lt_of_le_of_lt (hmax j hj) hc.2
      · right
        refine ⟨jn, Nat.lt_succ_of_lt hjn, ?_, hpos, ?_, hfirst⟩
        · rw [hstep, heq]
          simp only [heq] at hc ⊢
          simp [hc]
        · intro j hj
          rcases Nat.lt_succ_iff_lt_or_eq.mp hj with h | h
          · exact hmax j h
          · subst h
            by_cases h0 : 0 < rv j
            · exact le_of_not_lt (fun hlt => hc ⟨h0, hlt⟩)
            · exact le_of_lt (lt_of_le_of_lt (le_of_not_lt h0) hpos)

theorem ratioFold_spec (dv xv : Nat → ℚ) (r : Nat) :
    (ratioFold dv xv r = (false, 0, -1) ∧ ∀ i < r, dv i ≤ 0) ∨
      (∃ ln, ln < r ∧ ratioFold dv xv r = (true, xv ln / dv ln, (ln : Int)) ∧ 0 < dv ln ∧
        (∀ i < r, 0 < dv i → xv ln / dv ln ≤ xv i / dv i) ∧
        ∀ i < ln, 0 < dv i → xv ln / dv ln < xv i / dv i) := by
  induction r with
  | zero =>
    left
    exact ⟨rfl, fun i hi => absurd hi (Nat.not_lt_zero i)⟩
  | succ c ih =>
    have hstep : ratioFold dv xv (c+1) =
        (if dv c ≤ 0 then ratioFold dv xv c
         else if (ratioFold dv xv c).1 = false ∨ xv c / dv c < (ratioFold dv xv c).2.1
           then (true, xv c / dv c, (c : Int))
           else (true, (ratioFold dv xv c).2.1, (ratioFold dv xv c).2.2)) := by
      unfold ratioFold
      rw [List.range_succ, List.foldl_append]
      rfl
    by_cases hc : dv c ≤ 0
    · rcases ih with ⟨heq, hall⟩ | ⟨ln, hln, heq, hpos, hmin, hfirst⟩
      · left
        refine ⟨?_, ?_⟩
        · rw [hstep, heq]; simp [hc]
        · intro i hi
          rcases Nat.lt_succ_iff_lt_or_eq.mp hi with h | h
          · exact hall i h
          · subst h; exact hc
      · right
        refine ⟨ln, Nat.lt_succ_of_lt hln, ?_, hpos, ?_, hfirst⟩
        · rw [hstep, heq]; simp [hc]
        · intro i hi hdi
          rcases Nat.lt_succ_iff_lt_or_eq.mp hi with h | h
          · exact hmin i h hdi
          · subst h; exact absurd hdi (not_lt_of_le hc)
    · have hcpos : 0 < dv c := lt_of_not_le hc
      rcases ih with ⟨heq, hall⟩ | ⟨ln, hln, heq, hpos, hmin, hfirst⟩
      · right
        refine ⟨c, Nat.lt_succ_self c, ?_, hcpos, ?_, ?_⟩
        · rw [hstep, heq]; simp [hc]
        · intro i hi hdi
          rcases Nat.lt_succ_iff_lt_or_eq.mp hi with h | h
          · exact absurd hdi (not_lt_of_le (hall i h))
          · subst h; exact le_refl _
        · intro i hi hdi
          exact absurd hdi (not_lt_of_le (hall i hi))
      · by_cases hlt : xv c / dv c < xv ln / dv ln
        · right
          refine ⟨c, Nat.lt_succ_self c, ?_, hcpos, ?_, ?_⟩
          · rw [hstep, heq]; simp [hc, hlt]
          · intro i hi hdi
            rcases Nat.lt_succ_iff_lt_or_eq.mp hi with h | h
            · exact le_of_lt (lt_of_lt_of_le hlt (hmin i h hdi))
            · subst h; exact le_refl _
          · intro i hi hdi
            exact lt_of_lt_of_le hlt (hmin i hi hdi)
        · right
          refine ⟨ln, Nat.lt_succ_of_lt hln, ?_, hpos, ?_, hfirst⟩
          · rw [hstep, heq]
            simp [hc, hlt]
          · intro i hi hdi
            rcases Nat.lt_succ_iff_lt_or_eq.mp hi with h | h
            · exact hmin i h hdi
            · subst h; exact le_of_not_lt hlt

/-! ### Derived characterisations of the selection functions -/

theorem FindLeavingVariable_none (cf : CanonicalForm) (d : Mat)
    (h : ∀ i < matRows d, mget d i 0 ≤ 0) :
    cf.FindLeavingVariable d = (-1, -1) := by
  unfold CanonicalForm.FindLeavingVariable
  rcases ratioFold_spec (fun i => mget d i 0) (fun i => mget cf.xBStar i 0) (matRows d) with
    ⟨heq, _⟩ | ⟨ln, hln, heq, hpos, _, _⟩
  · rw [heq]
    rfl
  · exact absurd hpos (not_lt_of_le (h ln hln))


theorem FindLeavingVariable_found (cf : CanonicalForm) (d : Mat)
    (h : (cf.FindLeavingVariable d).2 ≠ -1) :
    ∃ ln, ln < matRows d ∧
      cf.FindLeavingVariable d = (mget cf.xBStar ln 0 / mget d ln 0, (ln : Int)) ∧
      0 < mget d ln 0 ∧
      (∀ i < matRows d, 0 < mget d i 0 →
        mget cf.xBStar ln 0 / mget d ln 0 ≤ mget cf.xBStar i 0 / mget d i 0) ∧
      ∀ i < ln, 0 < mget d i 0 →
        mget cf.xBStar ln 0 / mget d ln 0 < mget cf.xBStar i 0 / mget d i 0 := by
  unfold CanonicalForm.FindLeavingVariable at h ⊢
  rcases ratioFold_spec (fun i => mget d i 0) (fun i => mget cf.xBStar i 0) (matRows d) with
    ⟨heq, _⟩ | ⟨ln, hln, heq, hpos, hmin, hfirst⟩
  · rw [heq] at h
    simp at h
  · refine ⟨ln, hln, ?_, hpos, hmin, hfirst⟩
    rw [heq]
    simp

theorem FindEnteringVariable_unforced (cf : CanonicalForm) (y : Mat) :
    (cf.FindEnteringVariable y 0 = -1 ∧
      ∀ j < matCols (cf.reducedCosts y), mget (cf.reducedCosts y) 0 j ≤ 0) ∨
      (∃ jn, jn < matCols (cf.reducedCosts y) ∧
        cf.FindEnteringVariable y 0 = (jn : Int) ∧
        0 < mget (cf.reducedCosts y) 0 jn ∧
        (∀ j < matCols (cf.reducedCosts y),
          mget (cf.reducedCosts y) 0 j ≤ mget (cf.reducedCosts y) 0 jn) ∧
        ∀ j < jn, mget (cf.reducedCosts y) 0 j < mget (cf.reducedCosts y) 0 jn) := by
  unfold CanonicalForm.FindEnteringVariable
  simp only [ne_eq, not_true_eq_false, if_false, reduceIte]
  rcases dantzigFold_spec (fun j => mget (cf.reducedCosts y) 0 j)
      (matCols (cf.reducedCosts y)) with ⟨heq, hall⟩ | ⟨jn, hjn, heq, hpos, hmax, hfirst⟩
  · left
    exact ⟨by rw [heq], hall⟩
  · right
    exact ⟨jn, hjn, by rw [heq], hpos, hmax, hfirst⟩

/-! ### Structure of an `Iter` call (array variant) -/

theorem Iter_terminal_eq (cf : CanonicalForm) (f : Nat) (cf' : CanonicalForm)
    (h : cf.Iter f = some (true, cf')) : cf' = cf := by
  unfold CanonicalForm.Iter at h
  split at h
  · exact absurd h (by simp)
  · simp only [] at h
    split at h
    · exact (Prod.ext_iff.mp (Option.some_inj.mp h)).2.symm
    · split at h
      · exact absurd h (by simp)
      · split at h
        · exact (Prod.ext_iff.mp (Option.some_inj.mp h)).2.symm
        · simp at h

theorem Iter_false_shape (cf : CanonicalForm) (f : Nat) (cf' : CanonicalForm)
    (h : cf.Iter f = some (false, cf')) :
    ∃ y d, cf.FindY = some y ∧
      cf.FindEnteringVariable y f ≠ -1 ∧
      cf.SolveBd (cf.FindEnteringVariable y f).toNat = some d ∧
      (cf.FindLeavingVariable d).2 ≠ -1 ∧
      cf'.xBStar =
        msetEntry (matSub cf.xBStar (matScale (cf.FindLeavingVariable d).1 d))
          (cf.FindLeavingVariable d).2.toNat 0 (cf.FindLeavingVariable d).1 := by
  unfold CanonicalForm.Iter at h
  split at h
  · exact absurd h (by simp)
  next y hy =>
    simp only [] at h
    split at h
    · simp at h
    next hk =>
      split at h
      · exact absurd h (by simp)
      next d hd =>
        split at h
        · simp at h
        next hl =>
          refine ⟨y, d, hy, hk, hd, hl, ?_⟩
          have h2 := Option.some_inj.mp h
          injection h2 with h3 h4
          rw [← h4]
          rfl

/-! ### Non-negativity of the basic solution across a pivot -/

theorem mget_col_nonneg_all (M : Mat) (h : ∀ i < matRows M, 0 ≤ mget M i 0) :
    ∀ i, 0 ≤ mget M i 0 := by
  intro i
  by_cases hi : i < M.length
  · exact h i hi
  · rw [mget_row_oob M i 0 (le_of_not_lt hi)]

theorem pivot_xBStar_nonneg (xB d : Mat) (ln : Nat) (x : ℚ)
    (hx : x = mget xB ln 0 / mget d ln 0) (hdl : 0 < mget d ln 0)
    (hmin : ∀ i < matRows d, 0 < mget d i 0 → x ≤ mget xB i 0 / mget d i 0)
    (hpos : ∀ i, 0 ≤ mget xB i 0) (i : Nat) :
    0 ≤ mget (msetEntry (matSub xB (matScale x d)) ln 0 x) i 0 := by
  have hx0 : 0 ≤ x := by
    rw [hx]
    exact div_nonneg (hpos ln) (le_of_lt hdl)
  rcases mget_msetEntry_or (matSub xB (matScale x d)) ln 0 x i 0 with he | he
  · rw [he]; exact hx0
  · rw [he]
    rcases mget_matSub_matScale_or xB d x i with h0 | ⟨h1, h2, h3⟩
    · rw [h0]
    · rw [h3]
      by_cases hdi : 0 < mget d i 0
      · have hle := (le_div_iff hdi).mp (hmin i h2 hdi)
        linarith
      · have hd0 : mget d i 0 ≤ 0 := le_of_not_lt hdi
        have hmul : 0 ≤ x * (-(mget d i 0)) := mul_nonneg hx0 (neg_nonneg.mpr hd0)
        have hid : x * (-(mget d i 0)) = -(x * mget d i 0) := by ring
        have := hpos i
        linarith

/-- C2: starting from a constructed state whose `xBStar` (a copy of a
non-negative `b`) is componentwise non-negative, every successful
non-terminal `Iter` — whose pivot sets `xBStar ← xBStar - x·d` and then
`xBStar[l] = x` with `x` the minimum ratio over rows with `d i > 0` —
keeps `xBStar` componentwise non-negative. -/
theorem claim_C2_feasibility :
    (∀ c0 A0 b0 cf0, CanonicalForm.New c0 A0 b0 = some cf0 →
      (∀ i < matRows b0, 0 ≤ mget b0 i 0) → ∀ i, 0 ≤ mget cf0.xBStar i 0) ∧
    ∀ cf cf' : CanonicalForm, ∀ f : Nat,
      (∀ i < matRows cf.xBStar, 0 ≤ mget cf.xBStar i 0) →
      cf.Iter f = some (false, cf') →
      ∀ i, 0 ≤ mget cf'.xBStar i 0 := by
  constructor
  · intro c0 A0 b0 cf0 hnew hb
    have hxb : cf0.xBStar = b0 := by
      unfold CanonicalForm.New at hnew
      split at hnew
      · simp at hnew
      · simp only [] at hnew
        split at hnew
        · simp at hnew
        · rw [← Option.some_inj.mp hnew]
    rw [hxb]
    exact mget_col_nonneg_all b0 hb
  · intro cf cf' f hpos h
    have hpos' := mget_col_nonneg_all cf.xBStar hpos
    obtain ⟨y, d, hy, hk, hd, hl, hxb⟩ := Iter_false_shape cf f cf' h
    obtain ⟨ln, hln, heq, hdl, hmin, hfirst⟩ := FindLeavingVariable_found cf d hl
    intro i
    rw [hxb, heq]
    simp only [Int.toNat_natCast]
    exact pivot_xBStar_nonneg cf.xBStar d ln (mget cf.xBStar ln 0 / mget d ln 0)
      rfl hdl hmin hpos' i

theorem claim_C2_feasibility_witness : 0 ≤ mget cfA1.xBStar 0 0 := by
  have hIter : cfA0.Iter 0 = some (false, cfA1) := by with_unfolding_all decide
  exact claim_C2_feasibility.2 cfA0 cfA1 0 (by with_unfolding_all decide) hIter 0

/-- C1: on `c = [7,9,18,17]`, `A = [[2,4,5,7],[1,1,2,2],[1,2,3,3]]`,
`b = [42,17,24]` with iteration bound 10, `Simplex` returns without
error, uses exactly 2 iterations, yields objective value 147, and a
solution column of length `n+m = 7` whose first `n = 4` (structural)
entries are `[3,0,7,0]`. -/
theorem claim_C1_scenarioA :
    (Simplex [[7,9,18,17]] [[2,4,5,7],[1,1,2,2],[1,2,3,3]] [[42],[17],[24]] 10).map
        (fun t => (t.1, List.take 4 t.2.1, matRows t.2.1, t.2.2)) =
      some (2, [[3],[0],[7],[0]], 7, 147) := by
  with_unfolding_all decide

/-- C3: with no forced index, `FindEnteringVariable` returns `-1` exactly
when no reduced cost is positive (and then `Iter` terminates optimally
without mutation); otherwise it returns the first index attaining the
maximal positive reduced cost. -/
theorem claim_C3_entering_rule (cf : CanonicalForm) (y : Mat) :
    (cf.FindEnteringVariable y 0 = -1 ↔
      ∀ j < matCols (cf.reducedCosts y), mget (cf.reducedCosts y) 0 j ≤ 0) ∧
    (∀ jn : Nat, cf.FindEnteringVariable y 0 = (jn : Int) →
      jn < matCols (cf.reducedCosts y) ∧ 0 < mget (cf.reducedCosts y) 0 jn ∧
      (∀ j < matCols (cf.reducedCosts y),
        mget (cf.reducedCosts y) 0 j ≤ mget (cf.reducedCosts y) 0 jn) ∧
      ∀ j < jn, mget (cf.reducedCosts y) 0 j < mget (cf.reducedCosts y) 0 jn) ∧
    (cf.FindY = some y → cf.FindEnteringVariable y 0 = -1 →
      cf.Iter 0 = some (true, cf)) := by
  rcases FindEnteringVariable_unforced cf y with ⟨heq, hall⟩ |
    ⟨jn, hjn, heq, hpos, hmax, hfirst⟩
  · refine ⟨⟨fun _ => hall, fun _ => heq⟩, ?_, ?_⟩
    · intro jn' hjn'
      rw [heq] at hjn'
      exact absurd hjn'.symm (by omega)
    · intro hy _
      unfold CanonicalForm.Iter
      rw [hy]
      simp only []
      rw [if_pos heq]
  · refine ⟨⟨?_, ?_⟩, ?_, ?_⟩
    · intro h1
      rw [heq] at h1
      exact absurd h1 (by omega)
    · intro hall
      exact absurd hpos (not_lt_of_le (hall jn hjn))
    · intro jn' hjn'
      rw [heq] at hjn'
      have : jn = jn' := by omega
      subst this
      exact ⟨hjn, hpos, hmax, hfirst⟩
    · intro _ h1
      rw [heq] at h1
      exact absurd h1 (by omega)

theorem claim_C3_witness :
    cfA0.FindEnteringVariable [[0,0,0]] 0 = ((2 : Nat) : Int) ∧
      0 < mget (cfA0.reducedCosts [[0,0,0]]) 0 2 := by
  have he : cfA0.FindEnteringVariable [[0,0,0]] 0 = ((2 : Nat) : Int) := by
    with_unfolding_all decide
  exact ⟨he, (((claim_C3_entering_rule cfA0 [[0,0,0]]).2.1) 2 he).2.1⟩

/-- C4: when no row of the direction `d` is positive the ratio test
returns the `(-1, -1)` sentinel and the enclosing `Iter` terminates
(unbounded) without error or pivot; when some row is positive it returns
the minimum ratio `xBStar i / d i` over rows with `d i > 0`, first row
kept on ties. -/
theorem claim_C4_ratio_test (cf : CanonicalForm) (d : Mat) :
    ((∀ i < matRows d, mget d i 0 ≤ 0) → cf.FindLeavingVariable d = (-1, -1)) ∧
    (∀ f y, cf.FindY = some y → cf.FindEnteringVariable y f ≠ -1 →
      cf.SolveBd (cf.FindEnteringVariable y f).toNat = some d →
      (∀ i < matRows d, mget d i 0 ≤ 0) →
      cf.Iter f = some (true, cf)) ∧
    (∀ i0 < matRows d, 0 < mget d i0 0 →
      ∃ ln, ln < matRows d ∧
        cf.FindLeavingVariable d = (mget cf.xBStar ln 0 / mget d ln 0, (ln : Int)) ∧
        0 < mget d ln 0 ∧
        (∀ i < matRows d, 0 < mget d i 0 →
          mget cf.xBStar ln 0 / mget d ln 0 ≤ mget cf.xBStar i 0 / mget d i 0) ∧
        ∀ i < ln, 0 < mget d i 0 →
          mget cf.xBStar ln 0 / mget d ln 0 < mget cf.xBStar i 0 / mget d i 0) := by
  refine ⟨FindLeavingVariable_none cf d, ?_, ?_⟩
  · intro f y hy hk hd hall
    unfold CanonicalForm.Iter
    rw [hy]
    simp only []
    rw [if_neg hk, hd]
    simp only []
    rw [FindLeavingVariable_none cf d hall]
    rfl
  · intro i0 hi0 hdi0
    have hne : (cf.FindLeavingVariable d).2 ≠ -1 := by
      unfold CanonicalForm.FindLeavingVariable
      rcases ratioFold_spec (fun i => mget d i 0) (fun i => mget cf.xBStar i 0)
          (matRows d) with ⟨heq, hall⟩ | ⟨ln, hln, heq, hpos, _, _⟩
      · exact absurd hdi0 (not_lt_of_le (hall i0 hi0))
      · rw [heq]
        intro hc
        simp at hc
    exact FindLeavingVariable_found cf d hne

theorem claim_C4_witness : (cfA0.FindLeavingVariable [[5],[2],[3]]).2 ≠ -1 := by
  intro hc
  obtain ⟨ln, hln, heq, _⟩ :=
    (claim_C4_ratio_test cfA0 [[5],[2],[3]]).2.2 0 (by decide)
      (by with_unfolding_all decide)
  rw [heq] at hc
  simp only [] at hc
  omega

/-- C6: a terminal `Iter` leaves the state untouched, a repeated call
re-signals terminal on the identical state, and `GetResults` (a pure
query) yields the identical output on the unchanged state. -/
theorem claim_C6_terminal_idempotent (cf : CanonicalForm) (f : Nat) (cf' : CanonicalForm)
    (h : cf.Iter f = some (true, cf')) :
    cf' = cf ∧ cf.Iter f = some (true, cf) ∧ cf'.GetResults = cf.GetResults := by
  have he := Iter_terminal_eq cf f cf' h
  exact ⟨he, he ▸ h, by rw [he]⟩

theorem claim_C6_witness : cfA2.Iter 0 = some (true, cfA2) := by
  have h : cfA2.Iter 0 = some (true, cfA2) := by with_unfolding_all decide
  exact (claim_C6_terminal_idempotent cfA2 0 cfA2 h).2.1

/-- C7 (amended): `New` (whose inputs, per the matrix collaborator,
always have at least one row in the objective) fails exactly when the
objective is not a single row or the constraint matrix is wider than the
objective, and otherwise returns no error; the single-row failure
returns before any mutation of the receiver, but the width failure
returns only after the field `n` has already been set to the objective
width. -/
theorem claim_C7_validation_helper (c0 A0 b0 : Mat) (h : 1 ≤ matRows c0) :
    CanonicalForm.New c0 A0 b0 = none ↔
      (matRows c0 ≠ 1 ∨ matCols c0 < matCols A0) := by
  unfold CanonicalForm.New
  by_cases h1 : matRows c0 > 1
  · rw [if_pos h1]
    constructor
    · intro _
      exact Or.inl (by omega)
    · intro _
      rfl
  · rw [if_neg h1]
    simp only []
    have heq1 : matRows c0 = 1 := by omega
    by_cases h2 : matCols A0 > matCols c0
    · rw [if_pos h2]
      constructor
      · intro _
        right
        omega
      · intro _
        rfl
    · rw [if_neg h2]
      constructor
      · intro hc
        simp at hc
      · intro hor
        rcases hor with hr | hc
        · exact absurd heq1 hr
        · exact absurd hc (by omega)

theorem claim_C7_validation (c0 A0 b0 : Mat) (cf : CanonicalForm)
    (h : 1 ≤ matRows c0) :
    (CanonicalForm.New c0 A0 b0 = none ↔
      (matRows c0 ≠ 1 ∨ matCols c0 < matCols A0)) ∧
    (matRows c0 > 1 → cf.NewR c0 A0 b0 = (some "z dims.r > 1", cf)) ∧
    (matRows c0 ≤ 1 → matCols c0 < matCols A0 →
      cf.NewR c0 A0 b0 = (some "A dims.c > z dims.r", { cf with n := matCols c0 })) ∧
    ((cf.NewR c0 A0 b0).1 = none →
      CanonicalForm.New c0 A0 b0 = some (cf.NewR c0 A0 b0).2) := by
  refine ⟨claim_C7_validation_helper c0 A0 b0 h, ?_, ?_, ?_⟩
  · intro h1
    unfold CanonicalForm.NewR
    rw [if_pos h1]
  · intro h1 h2
    unfold CanonicalForm.NewR
    rw [if_neg (by omega)]
    simp only []
    rw [if_pos (by omega)]
  · intro h1
    unfold CanonicalForm.NewR at h1 ⊢
    unfold CanonicalForm.New
    by_cases hr : matRows c0 > 1
    · simp [hr] at h1
    · by_cases hw : matCols A0 > matCols c0
      · simp [hr, hw] at h1
      · simp [hr, hw]

/-- C7, counterexample to the claim as stated: on the objective `[1,2]`
and the wider constraint matrix `[1,2,3]`, the receiver-style `New`
returns the width validation error with the receiver's `n` field already
mutated from 0 to 2 — the error is not returned "before mutating any
state". -/
theorem claim_C7_counterexample :
    (cfDefault.NewR [[1,2]] [[1,2,3]] [[0]]).1.isSome = true ∧
      (cfDefault.NewR [[1,2]] [[1,2,3]] [[0]]).2 ≠ cfDefault ∧
      (cfDefault.NewR [[1,2]] [[1,2,3]] [[0]]).2.n = 2 := by
  with_unfolding_all decide

theorem claim_C7_witness :
    CanonicalForm.New [[1,2]] [[1,2,3]] [[0]] = none ∧
      CanonicalForm.New [[1,2]] [[1,2]] [[0]] ≠ none ∧
      cfDefault.NewR [[1,2]] [[1,2,3]] [[0]] =
        (some "A dims.c > z dims.r", { cfDefault with n := 2 }) := by
  have h3 := claim_C7_validation [[1,2]] [[1,2,3]] [[0]] cfDefault (by decide)
  have h4 := claim_C7_validation [[1,2]] [[1,2]] [[0]] cfDefault (by decide)
  refine ⟨h3.1.mpr (Or.inr (by decide)), ?_, ?_⟩
  · intro hc
    rcases h4.1.mp hc with h1 | h2
    · exact h1 (by decide)
    · exact absurd h2 (by decide)
  · have := h3.2.2.1 (by decide) (by decide)
    rw [this]
    rfl

/-- C10: a nonzero forced entering index whose reduced cost is not
positive makes `FindEnteringVariable` answer `-1`, so `Iter` reports
terminal (exactly like the optimal signal) with no error and an
unchanged state — regardless of other columns' reduced costs. -/
theorem claim_C10_forced_nonpositive (cf : CanonicalForm) (y : Mat) (idx : Nat)
    (hidx : idx ≠ 0) (hy : cf.FindY = some y)
    (hr : mget (cf.reducedCosts y) 0 idx ≤ 0) :
    cf.FindEnteringVariable y idx = -1 ∧ cf.Iter idx = some (true, cf) := by
  have hfe : cf.FindEnteringVariable y idx = -1 := by
    unfold CanonicalForm.FindEnteringVariable
    simp only []
    rw [if_pos hidx, if_neg (not_lt_of_le hr)]
  refine ⟨hfe, ?_⟩
  unfold CanonicalForm.Iter
  rw [hy]
  simp only []
  rw [if_pos hfe]

theorem claim_C10_witness :
    cfw0.FindEnteringVariable [[0]] 1 = -1 ∧ cfw0.Iter 1 = some (true, cfw0) ∧
      0 < mget (cfw0.reducedCosts [[0]]) 0 0 := by
  have h := claim_C10_forced_nonpositive cfw0 [[0]] 1 (by decide)
    (by with_unfolding_all decide) (by with_unfolding_all decide)
  exact ⟨h.1, h.2, by with_unfolding_all decide⟩

/-! ### The remap structures at initialisation -/

theorem mapLookup_append (l1 l2 : List (Nat × Nat)) (k : Nat) :
    mapLookup (l1 ++ l2) k =
      match mapLookup l1 k with
      | some v => some v
      | none => mapLookup l2 k := by
  induction l1 with
  | nil => rfl
  | cons p t ih =>
    by_cases hp : p.1 = k
    · simp [mapLookup, hp]
    · simp [mapLookup, hp, ih]

theorem mapLookup_slackInit_none (n m k : Nat) (h : n + m ≤ k) :
    mapLookup ((List.range m).map (fun i => (n + i, i))) k = none := by
  induction m with
  | zero => rfl
  | succ m' ih =>
    rw [List.range_succ, List.map_append, mapLookup_append, ih (by omega)]
    show (if n + m' = k then some m' else mapLookup [] k) = none
    rw [if_neg (by omega)]
    rfl

theorem mapLookup_slackInit (n m j : Nat) (h : j < m) :
    mapLookup ((List.range m).map (fun i => (n + i, i))) (n + j) = some j := by
  induction m with
  | zero => omega
  | succ m' ih =>
    rw [List.range_succ, List.map_append, mapLookup_append]
    by_cases hj : j < m'
    · rw [ih hj]
    · have hj' : j = m' := by omega
      subst hj'
      rw [mapLookup_slackInit_none n j (n + j) (by omega)]
      show (if n + j = n + j then some j else mapLookup [] (n + j)) = some j
      rw [if_pos rfl]

theorem mget_replicate_zero_col (k j : Nat) : mget (List.replicate k [0]) j 0 = 0 := by
  induction k generalizing j with
  | zero => cases j <;> rfl
  | succ k' ih =>
    cases j with
    | zero => rfl
    | succ j' => exact ih j'

theorem getResultsM_fold_unmapped (cf : CanonicalFormM) (j : Nat)
    (hj : mapLookup cf.remap j = none) (L : List Nat) :
    ∀ acc : Mat × ℚ, mget acc.1 j 0 = 0 →
      mget (L.foldl (fun acc xi =>
        match mapLookup cf.remap xi with
        | none => acc
        | some xo =>
          let v := mget cf.xBStar xo 0
          (msetEntry acc.1 xi 0 v,
           if xi < cf.n then acc.2 + v * mget cf.cN 0 xi else acc.2)) acc).1 j 0 = 0 := by
  induction L with
  | nil => exact fun acc h => h
  | cons xi t ih =>
    intro acc h
    rw [List.foldl_cons]
    cases hx : mapLookup cf.remap xi with
    | none =>
      apply ih
      simp only [hx]
      exact h
    | some xo =>
      apply ih
      simp only [hx]
      have hne : j ≠ xi := by
        intro he
        rw [he, hx] at hj
        exact Option.noConfusion hj
      rw [mget_msetEntry_ne _ _ _ _ _ _ (Or.inl hne)]
      exact h

/-- C8 (amended): after a successful `New` the remap associates each
slack augmented index `n+i` with basis row `i` in order, and exactly `m`
augmented indices are mapped at initialisation (in the array variant the
identity array of length `n+m`, whose positions `n..n+m-1` carry the
basic indices); unmapped indices are extracted as zero.  The exactly-`m`
invariant is *not* maintained by the map variant across pivots. -/
theorem claim_C8_remap_structure :
    (∀ c0 A0 b0 cf, CanonicalForm.New c0 A0 b0 = some cf →
      cf.remap.length = cf.n + cf.m ∧
      ∀ i < cf.m, lgetD 0 cf.remap (cf.n + i) = cf.n + i) ∧
    (∀ z0 A0 b0 cfm, CanonicalFormM.New z0 A0 b0 = some cfm →
      cfm.remap.length = cfm.m ∧
      ∀ i < cfm.m, mapLookup cfm.remap (cfm.n + i) = some i) ∧
    (∀ cfm : CanonicalFormM, ∀ j, mapLookup cfm.remap j = none →
      mget cfm.GetResults.1 j 0 = 0) := by
  refine ⟨?_, ?_, ?_⟩
  · intro c0 A0 b0 cf hnew
    unfold CanonicalForm.New at hnew
    split at hnew
    · simp at hnew
    · simp only [] at hnew
      split at hnew
      · simp at hnew
      · have hcf := (Option.some_inj.mp hnew).symm
        subst hcf
        refine ⟨by simp, ?_⟩
        intro i hi
        simp only [] at hi ⊢
        exact lgetD_range _ _ (by omega)
  · intro z0 A0 b0 cfm hnew
    unfold CanonicalFormM.New at hnew
    split at hnew
    · simp at hnew
    · simp only [] at hnew
      split at hnew
      · simp at hnew
      · have hcf := (Option.some_inj.mp hnew).symm
        subst hcf
        refine ⟨by simp, ?_⟩
        intro i hi
        simp only [] at hi ⊢
        exact mapLookup_slackInit _ _ _ hi
  · intro cfm j hj
    unfold CanonicalFormM.GetResults
    exact getResultsM_fold_unmapped cfm j hj _ _ (mget_replicate_zero_col _ j)

theorem claim_C8_witness :
    lgetD 0 cfA0.remap (cfA0.n + 0) = cfA0.n + 0 ∧
      mapLookup cfmA0.remap (cfmA0.n + 0) = some 0 ∧
      mget cfd2.GetResults.1 2 0 = 0 := by
  refine ⟨?_, ?_, ?_⟩
  · exact (claim_C8_remap_structure.1 [[7,9,18,17]] [[2,4,5,7],[1,1,2,2],[1,2,3,3]]
      [[42],[17],[24]] cfA0 (by with_unfolding_all decide)).2 0
      (by with_unfolding_all decide)
  · exact (claim_C8_remap_structure.2.1 [[7,9,18,17]] [[2,4,5,7],[1,1,2,2],[1,2,3,3]]
      [[42],[17],[24]] cfmA0 (by with_unfolding_all decide)).2 0
      (by with_unfolding_all decide)
  · exact claim_C8_remap_structure.2.2 cfd2 2 (by with_unfolding_all decide)

/-- C8, counterexample to the claim as stated: on `c = [3,5]`,
`A = [[1,2]]`, `b = [2]` the map variant reaches (after two successful
pivots, both leaving row 0) a state whose remap holds 2 entries although
`m = 1` — "at all times exactly m augmented indices are mapped" fails. -/
theorem claim_C8_counterexample :
    cfd0.Iter 0 = some (false, cfd1) ∧ cfd1.Iter 0 = some (false, cfd2) ∧
      cfd2.remap.length = 2 ∧ cfd2.m = 1 ∧ cfd2.remap.length ≠ cfd2.m := by
  with_unfolding_all decide

/-- C9: the two remap strategies are observably inequivalent: on
`c = [3,5]`, `A = [[1,2]]`, `b = [2]` the array-swap variant returns the
(correct) solution `[2,0,0]` with objective 6, while the sparse-map
variant returns `[2,2,0]` with objective 16 — the same pivot sequence,
different `GetResults` outputs. -/
theorem claim_C9_variants_diverge :
    Simplex [[3,5]] [[1,2]] [[2]] 10 = some (2, [[2],[0],[0]], 6) ∧
    SimplexM [[3,5]] [[1,2]] [[2]] 10 = some (2, [[2],[2],[0]], 16) ∧
    Simplex [[3,5]] [[1,2]] [[2]] 10 ≠ SimplexM [[3,5]] [[1,2]] [[2]] 10 := by
  with_unfolding_all decide

/-! ### Entry lemmas for the pivot update -/

theorem lgetD_zipWith {α β γ : Type} (f : α → β → γ) (l1 : List α) (l2 : List β)
    (d1 : α) (d2 : β) (d3 : γ) :
    ∀ i, i < l1.length → i < l2.length →
      lgetD d3 (List.zipWith f l1 l2) i = f (lgetD d1 l1 i) (lgetD d2 l2 i) := by
  induction l1 generalizing l2 with
  | nil => intro i hi _; simp at hi
  | cons a t ih =>
    intro i hi1 hi2
    cases l2 with
    | nil => simp at hi2
    | cons b t2 =>
      cases i with
      | zero => rfl
      | succ i' => exact ih t2 i' (by simpa using hi1) (by simpa using hi2)

theorem lgetD_map {α β : Type} (g : α → β) (l : List α) (d1 : α) (d2 : β) :
    ∀ i, i < l.length → lgetD d2 (l.map g) i = g (lgetD d1 l i) := by
  induction l with
  | nil => intro i hi; simp at hi
  | cons a t ih =>
    intro i hi
    cases i with
    | zero => rfl
    | succ i' => exact ih i' (by simpa using hi)

theorem mapRows_lgetD (f : Nat → List ℚ → List ℚ) (M : Mat) :
    ∀ (s i : Nat), i < M.length →
      lgetD [] (mapRows f s M) i = f (s + i) (lgetD [] M i) := by
  induction M with
  | nil => intro s i hi; simp at hi
  | cons row rest ih =>
    intro s i hi
    cases i with
    | zero =>
      show f s row = f (s + 0) row
      rw [Nat.add_zero]
    | succ i' =>
      show lgetD [] (mapRows f (s+1) rest) i' = f (s + (i' + 1)) (lgetD [] rest i')
      rw [show s + (i' + 1) = (s + 1) + i' by omega]
      exact ih (s+1) i' (by simpa using hi)

theorem lgetD_swapEntries (row : List ℚ) (a b j : Nat)
    (ha : a < row.length) (hb : b < row.length) :
    lgetD 0 (swapEntries row a b) j =
      if j = b then lgetD 0 row a
      else if j = a then lgetD 0 row b
      else lgetD 0 row j := by
  unfold swapEntries
  by_cases hj : j = b
  · subst hj
    rw [if_pos rfl]
    exact lgetD_lset_self 0 _ j _ (by rw [lset_length]; exact hb)
  · rw [if_neg hj, lgetD_lset_ne 0 _ b j _ hj]
    by_cases hj2 : j = a
    · subst hj2
      rw [if_pos rfl]
      exact lgetD_lset_self 0 row j _ ha
    · rw [if_neg hj2, lgetD_lset_ne 0 row a j _ hj2]

theorem matSub_matScale_row (xB d : Mat) (x : ℚ) (i : Nat)
    (h1 : i < xB.length) (h2 : i < d.length) :
    lgetD [] (matSub xB (matScale x d)) i =
      List.zipWith (fun a b => a - b) (lgetD [] xB i)
        ((lgetD [] d i).map (fun a => x * a)) := by
  unfold matSub matScale
  rw [lgetD_zipWith (List.zipWith (fun a b => a - b)) xB
    (d.map (fun row => row.map (fun a => x * a))) [] [] [] i h1 (by simpa using h2)]
  rw [lgetD_map (fun row => row.map (fun a => x * a)) d [] [] i h2]

theorem mget_matSub_matScale_eq (xB d : Mat) (x : ℚ) (i : Nat)
    (h1 : i < xB.length) (h2 : i < d.length)
    (h3 : 0 < (lgetD [] xB i).length) (h4 : 0 < (lgetD [] d i).length) :
    mget (matSub xB (matScale x d)) i 0 = mget xB i 0 - x * mget d i 0 := by
  unfold mget
  rw [matSub_matScale_row xB d x i h1 h2]
  rw [lgetD_zipWith (fun a b => a - b) (lgetD [] xB i)
    ((lgetD [] d i).map (fun a => x * a)) 0 0 0 0 h3 (by simpa using h4)]
  rw [lgetD_map (fun a => x * a) (lgetD [] d i) 0 0 0 h4]

theorem update_xBStar_entry (xB d : Mat) (x : ℚ) (l m : Nat)
    (hxl : xB.length = m) (hxw : ∀ i < m, 0 < (lgetD [] xB i).length)
    (hdl : d.length = m) (hdw : ∀ i < m, 0 < (lgetD [] d i).length)
    (hl : l < m) :
    ∀ i < m, mget (msetEntry (matSub xB (matScale x d)) l 0 x) i 0 =
      if i = l then x else mget xB i 0 - x * mget d i 0 := by
  have hSl : (matSub xB (matScale x d)).length = m := by
    simp [matSub, matScale, hxl, hdl]
  intro i hi
  by_cases hil : i = l
  · subst hil
    rw [if_pos rfl]
    apply mget_msetEntry_self
    · omega
    · rw [matSub_matScale_row xB d x i (by omega) (by omega)]
      simp only [List.length_zipWith, List.length_map, lt_min_iff]
      exact ⟨hxw i hi, hdw i hi⟩
  · rw [if_neg hil, mget_msetEntry_ne _ _ _ _ _ _ (Or.inl hil)]
    exact mget_matSub_matScale_eq xB d x i (by omega) (by omega) (hxw i hi) (hdw i hi)

/-- C5 (amended): for a well-shaped pivot, the array variant's `Update`
applies `xBStar ← xBStar - x·d` then `xBStar[l] = x` and exchanges the
physical columns `n+l` (in `B`) and `k` (in `AN`) of the shared matrix
together with the two cost entries, leaving every other entry unchanged;
the map variant's `Update` applies the same `xBStar` formulas and
overwrites column `n+l` and cost entry `n+l` with the entering data, but
leaves `AN`'s column `k` and `cN[k]` (and everything else) unchanged —
it does not exchange. -/
theorem claim_C5_pivot_update :
    (∀ (cf : CanonicalForm) (d : Mat) (x : ℚ) (k l : Nat),
      cf.A.length = cf.m → (∀ i < cf.m, (lgetD [] cf.A i).length = cf.n + cf.m) →
      cf.c.length = 1 → (lgetD [] cf.c 0).length = cf.n + cf.m →
      cf.xBStar.length = cf.m → (∀ i < cf.m, 0 < (lgetD [] cf.xBStar i).length) →
      matRows d = cf.m → (∀ i < cf.m, 0 < (lgetD [] d i).length) →
      k < cf.n → l < cf.m →
      (∀ i < cf.m,
        mget (cf.Update d x k l).A i (cf.n + l) = mget cf.A i k ∧
        mget (cf.Update d x k l).A i k = mget cf.A i (cf.n + l) ∧
        ∀ j, j ≠ k → j ≠ cf.n + l → mget (cf.Update d x k l).A i j = mget cf.A i j) ∧
      (mget (cf.Update d x k l).c 0 (cf.n + l) = mget cf.c 0 k ∧
       mget (cf.Update d x k l).c 0 k = mget cf.c 0 (cf.n + l) ∧
       ∀ j, j ≠ k → j ≠ cf.n + l → mget (cf.Update d x k l).c 0 j = mget cf.c 0 j) ∧
      (∀ i < cf.m, mget (cf.Update d x k l).xBStar i 0 =
        if i = l then x else mget cf.xBStar i 0 - x * mget d i 0)) ∧
    (∀ (cf : CanonicalFormM) (d : Mat) (x : ℚ) (k l : Nat),
      cf.A.length = cf.m → (∀ i < cf.m, (lgetD [] cf.A i).length = cf.n + cf.m) →
      cf.c.length = 1 → (lgetD [] cf.c 0).length = cf.n + cf.m →
      cf.xBStar.length = cf.m → (∀ i < cf.m, 0 < (lgetD [] cf.xBStar i).length) →
      matRows d = cf.m → (∀ i < cf.m, 0 < (lgetD [] d i).length) →
      k < cf.n → l < cf.m →
      (∀ i < cf.m,
        mget (cf.Update d x k l).A i (cf.n + l) = mget cf.A i k ∧
        ∀ j, j ≠ cf.n + l → mget (cf.Update d x k l).A i j = mget cf.A i j) ∧
      (mget (cf.Update d x k l).c 0 (cf.n + l) = mget cf.c 0 k ∧
       ∀ j, j ≠ cf.n + l → mget (cf.Update d x k l).c 0 j = mget cf.c 0 j) ∧
      (∀ i < cf.m, mget (cf.Update d x k l).xBStar i 0 =
        if i = l then x else mget cf.xBStar i 0 - x * mget d i 0)) := by
  constructor
  · intro cf d x k l hAr hAw hcl hcw hxl hxw hdl hdw hk hl
    have hrowA : ∀ i < cf.m, lgetD [] (cf.Update d x k l).A i =
        swapEntries (lgetD [] cf.A i) (cf.n + l) k := by
      intro i hi
      show lgetD [] (mapRows
        (fun i row => if i < matRows d then swapEntries row (cf.n + l) k else row)
        0 cf.A) i = _
      rw [mapRows_lgetD _ cf.A 0 i (by omega), Nat.zero_add, if_pos (by omega)]
    have hrowc : lgetD [] (cf.Update d x k l).c 0 =
        swapEntries (lgetD [] cf.c 0) (cf.n + l) k := by
      show lgetD [] (mapRows
        (fun i row => if i = 0 then swapEntries row (cf.n + l) k else row)
        0 cf.c) 0 = _
      rw [mapRows_lgetD _ cf.c 0 0 (by omega), if_pos rfl]
    refine ⟨?_, ?_, ?_⟩
    · intro i hi
      have ha : cf.n + l < (lgetD [] cf.A i).length := by rw [hAw i hi]; omega
      have hb : k < (lgetD [] cf.A i).length := by rw [hAw i hi]; omega
      refine ⟨?_, ?_, ?_⟩
      · show lgetD 0 (lgetD [] (cf.Update d x k l).A i) (cf.n + l) = _
        rw [hrowA i hi, lgetD_swapEntries _ _ _ _ ha hb, if_neg (by omega), if_pos rfl]
        rfl
      · show lgetD 0 (lgetD [] (cf.Update d x k l).A i) k = _
        rw [hrowA i hi, lgetD_swapEntries _ _ _ _ ha hb, if_pos rfl]
        rfl
      · intro j hjk hjl
        show lgetD 0 (lgetD [] (cf.Update d x k l).A i) j = _
        rw [hrowA i hi, lgetD_swapEntries _ _ _ _ ha hb, if_neg hjk, if_neg hjl]
        rfl
    · have ha : cf.n + l < (lgetD [] cf.c 0).length := by rw [hcw]; omega
      have hb : k < (lgetD [] cf.c 0).length := by rw [hcw]; omega
      refine ⟨?_, ?_, ?_⟩
      · show lgetD 0 (lgetD [] (cf.Update d x k l).c 0) (cf.n + l) = _
        rw [hrowc, lgetD_swapEntries _ _ _ _ ha hb, if_neg (by omega), if_pos rfl]
        rfl
      · show lgetD 0 (lgetD [] (cf.Update d x k l).c 0) k = _
        rw [hrowc, lgetD_swapEntries _ _ _ _ ha hb, if_pos rfl]
        rfl
      · intro j hjk hjl
        show lgetD 0 (lgetD [] (cf.Update d x k l).c 0) j = _
        rw [hrowc, lgetD_swapEntries _ _ _ _ ha hb, if_neg hjk, if_neg hjl]
        rfl
    · exact update_xBStar_entry cf.xBStar d x l cf.m hxl hxw hdl hdw hl
  · intro cf d x k l hAr hAw hcl hcw hxl hxw hdl hdw hk hl
    have hrowA : ∀ i < cf.m, lgetD [] (cf.Update d x k l).A i =
        lset (lgetD [] cf.A i) (cf.n + l) (lgetD 0 (lgetD [] cf.A i) k) := by
      intro i hi
      show lgetD [] (mapRows
        (fun i row => if i < matRows d then lset row (cf.n + l) (lgetD 0 row k) else row)
        0 cf.A) i = _
      rw [mapRows_lgetD _ cf.A 0 i (by omega), Nat.zero_add, if_pos (by omega)]
    have hrowc : lgetD [] (cf.Update d x k l).c 0 =
        lset (lgetD [] cf.c 0) (cf.n + l) (lgetD 0 (lgetD [] cf.c 0) k) := by
      show lgetD [] (mapRows
        (fun i row => if i = 0 then lset row (cf.n + l) (lgetD 0 row k) else row)
        0 cf.c) 0 = _
      rw [mapRows_lgetD _ cf.c 0 0 (by omega), if_pos rfl]
    refine ⟨?_, ?_, ?_⟩
    · intro i hi
      have ha : cf.n + l < (lgetD [] cf.A i).length := by rw [hAw i hi]; omega
      refine ⟨?_, ?_⟩
      · show lgetD 0 (lgetD [] (cf.Update d x k l).A i) (cf.n + l) = _
        rw [hrowA i hi, lgetD_lset_self 0 _ _ _ ha]
        rfl
      · intro j hjl
        show lgetD 0 (lgetD [] (cf.Update d x k l).A i) j = _
        rw [hrowA i hi, lgetD_lset_ne 0 _ _ _ _ hjl]
        rfl
    · have ha : cf.n + l < (lgetD [] cf.c 0).length := by rw [hcw]; omega
      refine ⟨?_, ?_⟩
      · show lgetD 0 (lgetD [] (cf.Update d x k l).c 0) (cf.n + l) = _
        rw [hrowc, lgetD_lset_self 0 _ _ _ ha]
        rfl
      · intro j hjl
        show lgetD 0 (lgetD [] (cf.Update d x k l).c 0) j = _
        rw [hrowc, lgetD_lset_ne 0 _ _ _ _ hjl]
        rfl
    · exact update_xBStar_entry cf.xBStar d x l cf.m hxl hxw hdl hdw hl

/-- C5, counterexample to the claim as stated: in the map variant, after
the scenario-A first pivot (`d = [5,2,3]`, `x = 8`, entering `k = 2`,
leaving `l = 2`), `AN`'s column 2 still holds its old value 5 in row 0
instead of the former `B` column's 0 — the claimed exchange of the two
physical columns does not happen. -/
theorem claim_C5_counterexample :
    mget (cfmA0.Update [[5],[2],[3]] 8 2 2).A 0 2 = 5 ∧
      mget cfmA0.A 0 (cfmA0.n + 2) = 0 ∧
      mget (cfmA0.Update [[5],[2],[3]] 8 2 2).A 0 2 ≠ mget cfmA0.A 0 (cfmA0.n + 2) := by
  with_unfolding_all decide

theorem claim_C5_witness :
    mget (cfA0.Update [[5],[2],[3]] 8 2 2).A 0 (cfA0.n + 2) = mget cfA0.A 0 2 ∧
      mget (cfA0.Update [[5],[2],[3]] 8 2 2).A 0 2 = mget cfA0.A 0 (cfA0.n + 2) ∧
      mget (cfmA0.Update [[5],[2],[3]] 8 2 2).A 0 (cfmA0.n + 2) = mget cfmA0.A 0 2 := by
  have h1 := claim_C5_pivot_update.1 cfA0 [[5],[2],[3]] 8 2 2
    (by with_unfolding_all decide) (by with_unfolding_all decide)
    (by with_unfolding_all decide) (by with_unfolding_all decide)
    (by with_unfolding_all decide) (by with_unfolding_all decide)
    (by with_unfolding_all decide) (by with_unfolding_all decide)
    (by with_unfolding_all decide) (by with_unfolding_all decide)
  have h2 := claim_C5_pivot_update.2 cfmA0 [[5],[2],[3]] 8 2 2
    (by with_unfolding_all decide) (by with_unfolding_all decide)
    (by with_unfolding_all decide) (by with_unfolding_all decide)
    (by with_unfolding_all decide) (by with_unfolding_all decide)
    (by with_unfolding_all decide) (by with_unfolding_all decide)
    (by with_unfolding_all decide) (by with_unfolding_all decide)
  exact ⟨(h1.1 0 (by with_unfolding_all decide)).1,
         (h1.1 0 (by with_unfolding_all decide)).2.1,
         (h2.1 0 (by with_unfolding_all decide)).1⟩
